import Mathlib

/-
Verification of the coverage / longest-not-NaN-run analysis of
`research/cc/statistics.py` (`compute_start_end_stats`,
`find_longest_not_nan_sequence`).

Shallow embedding conventions:
* Timestamps are integers counting nanoseconds (the resolution of
  `pandas.Timestamp` / `numpy.datetime64[ns]`).  `minuteNs` is the length of
  the frequency alias `"T"`, `dayNs` the length of one day.
* A series is a `List Entry`: index entries in index order, each carrying its
  timestamp and `Option Int` value (`none` models a NaN value; the concrete
  value payload is irrelevant to every statistic computed here).
* Fallible Python code is embedded in `Except PyError`; the constructors name
  the Python exception classes that the corresponding operations raise.
* Rational numbers stand for the exact values of the float arithmetic; the
  special float results that numpy produces on division by zero are made
  explicit by `NpVal`.
-/

namespace KaizenStats

/-- One row of a value series: a timestamp (ns) and an optional value
(`none` models NaN). -/
structure Entry where
  ts : Int
  val : Option Int
deriving DecidableEq, Repr

/-- Python exception classes that the embedded code can raise. -/
inductive PyError where
  | assertionError
  | valueError
  | typeError
  | indexError
deriving DecidableEq, Repr

/-- Nanoseconds in one minute: the duration of the pandas frequency alias
`"T"`. -/
def minuteNs : Int := 60000000000

/-- Nanoseconds in one day, the unit of `pandas.Timedelta.days`. -/
def dayNs : Int := 86400000000000

/-- `e` carries a NaN value. -/
def isNA (e : Entry) : Bool := e.val.isNone

/-- `e` carries an observed (non-NaN) value. -/
def isObs (e : Entry) : Bool := e.val.isSome

/-- `data.dropna()`: the rows whose value is not NaN, in index order. -/
def dropna (s : List Entry) : List Entry := s.filter isObs

/-- Boolean test that the index is strictly increasing, as checked by the
`dassert_strictly_increasing_index` / `dassert_monotonic_index` assertions.
Modelled from the spec: those helpers live in `helpers/hpandas.py`, which is
not among the sources here; the spec requires timestamps to be strictly
increasing and a violation to fail fast as a caller contract error. -/
def sIncB : List Entry → Bool
  | a :: b :: rest => decide (a.ts < b.ts) && sIncB (b :: rest)
  | _ => true

/-- Successive differences of a list of timestamps (`np.diff`). -/
def diffs : List Int → List Int
  | a :: b :: rest => (b - a) :: diffs (b :: rest)
  | _ => []

/-- `pd.infer_freq(index)`: raises `ValueError` on fewer than 3 timestamps
("Need at least 3 dates to infer frequency"); returns the fixed frequency when
every successive difference is the same duration; returns `None` when the gaps
do not repeat a single duration (no dominant fixed frequency). -/
def pdInferFreq (ts : List Int) : Except PyError (Option Int) :=
  if ts.length < 3 then .error .valueError
  else
    match diffs ts with
    | [] => .ok none
    | d :: ds => if ds.all (fun x => x = d) then .ok (some d) else .ok none

/-- `pd.Timedelta(1, freq)`: for a fixed inferred frequency this is one period
of that frequency; for `freq = None` the pandas default unit is nanoseconds,
so the result is one nanosecond. -/
def pdTimedeltaOne : Option Int → Int
  | none => 1
  | some d => d

/-- The mask/split step of `find_longest_not_nan_sequence`:
`np.split(not_nan_index, np.where(np.diff(not_nan_index) != interval)[0] + 1)`.
Consecutive rows stay in the same group exactly when their timestamp
difference equals `interval`; a group boundary is placed after every other
difference.  `np.split` of an empty array with no split points yields one
empty group. -/
def splitAtGaps (interval : Int) : List Entry → List (List Entry)
  | [] => [[]]
  | [e] => [[e]]
  | e :: e' :: rest =>
    if e'.ts - e.ts ≠ interval then
      [e] :: splitAtGaps interval (e' :: rest)
    else
      match splitAtGaps interval (e' :: rest) with
      | r :: rs => (e :: r) :: rs
      | [] => [[e]]

/-- Python's `max(groups, key=len)`: the first group of greatest length. -/
def maxByLen : List (List Entry) → List Entry
  | [] => []
  | r :: rs =>
    let m := maxByLen rs
    if m.length > r.length then m else r

/-- `find_longest_not_nan_sequence(data)` of `research/cc/statistics.py`:
assert a strictly increasing index, infer the index frequency, drop NaN rows,
split the remaining rows at every timestamp difference that is not exactly one
inferred period, and return the first longest group (selected back out of
`data` by `.loc`, which reproduces exactly those rows). -/
def find_longest_not_nan_sequence (data : List Entry) :
    Except PyError (List Entry) :=
  if sIncB data = true then
    match pdInferFreq (data.map Entry.ts) with
    | .error e => .error e
    | .ok freq =>
        .ok (maxByLen (splitAtGaps (pdTimedeltaOne freq) (dropna data)))
  else .error .assertionError

/-- `Series.first_valid_index()`: the timestamp of the first non-NaN row. -/
def first_valid_index (s : List Entry) : Option Int :=
  (s.find? isObs).map Entry.ts

/-- `Series.last_valid_index()`: the timestamp of the last non-NaN row. -/
def last_valid_index (s : List Entry) : Option Int :=
  (s.reverse.find? isObs).map Entry.ts

/-- Lower-bound test of pandas label slicing (`none` = unbounded). -/
def geLo (lo : Option Int) (e : Entry) : Bool :=
  match lo with
  | none => true
  | some a => decide (a ≤ e.ts)

/-- Upper-bound test of pandas label slicing (`none` = unbounded). -/
def leHi (hi : Option Int) (e : Entry) : Bool :=
  match hi with
  | none => true
  | some b => decide (e.ts ≤ b)

/-- Pandas label slicing `srs[lo:hi]` on a monotonic index: keeps the rows
whose timestamp lies between both bounds inclusive; a `None` bound is
unbounded (so `srs[None:None]` is the whole series). -/
def sliceByLabel (lo hi : Option Int) (s : List Entry) : List Entry :=
  s.filter (fun e => geLo lo e && leHi hi e)

/-- The trimming step of `compute_start_end_stats` (lines 114-117):
`close_price_srs[close_price_srs.first_valid_index():
close_price_srs.last_valid_index()]`. -/
def trimSeries (s : List Entry) : List Entry :=
  sliceByLabel (first_valid_index s) (last_valid_index s) s

/-- Result of a numpy scalar division: finite quotient, or the IEEE special
values that `np.int64 / 0` produces (a `RuntimeWarning`, not an exception). -/
inductive NpVal where
  | fin (q : ℚ)
  | posInf
  | negInf
  | nan
deriving DecidableEq, Repr

/-- Division of a numpy integer scalar by an integer: `n / 0` yields
`inf`/`-inf`/`nan` according to the sign of `n` instead of raising. -/
def npDiv (n d : Int) : NpVal :=
  if d = 0 then
    if n = 0 then .nan else if 0 < n then .posInf else .negInf
  else .fin ((n : ℚ) / (d : ℚ))

/-- Modelled from the spec: `compute_frac_nan` is defined in
`core/statistics.py`, which is not among the sources here.  The spec fixes
`coverage_pct = 100 * non_missing_count / total_points_in_trimmed_range`, and
the source computes `coverage = 100 * (1 - compute_frac_nan(srs))`, so the
fraction of NaN values is `nan_count / total`. -/
def compute_frac_nan (s : List Entry) : ℚ :=
  (((s.filter isNA).length : ℚ)) / ((s.length : ℚ))

/-- The input of `compute_start_end_stats` that the computed statistics depend
on: the `freq` attribute of the `DatetimeIndex` (in ns; the alias `"T"` is
`minuteNs`, an index without a set frequency has `none`) and the close-price
column.  The exchange/currency columns only pass through as labels and are
omitted. -/
structure PriceData where
  indexFreq : Option Int
  close : List Entry
deriving DecidableEq, Repr

/-- The numeric fields of the start-end stats series assembled by
`compute_start_end_stats` (the pass-through label fields are omitted). -/
structure StartEndStats where
  minTimestamp : Int
  maxTimestamp : Int
  nDataPoints : Nat
  coverage : ℚ
  daysAvailable : Int
  avgDataPointsPerDay : NpVal
  longestSeqDays : Int
  longestSeqPerc : ℚ
  longestSeqStart : Int
  longestSeqEnd : Int
deriving DecidableEq, Repr

/-- `compute_start_end_stats(price_data, config)` of
`research/cc/statistics.py`.  The assertions on lines 109-111 come first: the
index must be monotonic (strictly increasing; `dassert_monotonic_index` is
modelled from the spec, see `sIncB`) and its `freq` attribute must equal
`"T"` (`hdbg.dassert_eq(price_data.index.freq, "T")`, a fail-fast equality
assertion).  Then the close series is trimmed, the longest not-NaN sequence is
located, and the statistics are assembled in source order: subtracting the
`None` valid indices of an all-NaN series raises `TypeError` (line 130) before
the empty longest sequence would raise `IndexError` (line 135). -/
def compute_start_end_stats (p : PriceData) : Except PyError StartEndStats :=
  if sIncB p.close = true then
    if p.indexFreq = some minuteNs then
      match find_longest_not_nan_sequence (trimSeries p.close) with
      | .error e => .error e
      | .ok longest =>
        match first_valid_index p.close, last_valid_index p.close with
        | some fi, some li =>
          match longest.head?, longest.getLast? with
          | some h0, some h1 =>
            .ok
              { minTimestamp := fi
                maxTimestamp := li
                nDataPoints := (dropna (trimSeries p.close)).length
                coverage := 100 * (1 - compute_frac_nan (trimSeries p.close))
                daysAvailable := Int.fdiv (li - fi) dayNs
                avgDataPointsPerDay :=
                  npDiv ((dropna (trimSeries p.close)).length : Int)
                    (Int.fdiv (li - fi) dayNs)
                longestSeqDays := Int.fdiv (h1.ts - h0.ts) dayNs
                longestSeqPerc :=
                  100 * ((longest.length : ℚ) /
                    ((trimSeries p.close).length : ℚ))
                longestSeqStart := h0.ts
                longestSeqEnd := h1.ts }
          | _, _ => .error .indexError
        | _, _ => .error .typeError
    else .error .assertionError
  else .error .assertionError

/-- The spec's description of the run partition: a boundary is marked exactly
where a successive difference of non-missing timestamps is strictly greater
than the interval, and the non-missing rows are grouped between boundaries. -/
def specSplit (interval : Int) : List Entry → List (List Entry)
  | [] => [[]]
  | [e] => [[e]]
  | e :: e' :: rest =>
    if interval < e'.ts - e.ts then
      [e] :: specSplit interval (e' :: rest)
    else
      match specSplit interval (e' :: rest) with
      | r :: rs => (e :: r) :: rs
      | [] => [[e]]

/-- The spec's description of trimming: remove the trailing and the leading
entries whose value is missing, keeping everything in between. -/
def specTrim (s : List Entry) : List Entry :=
  ((s.reverse.dropWhile isNA).reverse).dropWhile isNA

/-- Spec scenario A: one-minute series over minutes 0-9, values present at
minutes 0,1,2, missing at 3, present at 4,5,6,7, missing at 8, present at 9. -/
def exC9 : List Entry :=
  [⟨0, some 1⟩, ⟨minuteNs, some 2⟩, ⟨2 * minuteNs, some 3⟩,
   ⟨3 * minuteNs, none⟩, ⟨4 * minuteNs, some 4⟩, ⟨5 * minuteNs, some 5⟩,
   ⟨6 * minuteNs, some 6⟩, ⟨7 * minuteNs, some 7⟩, ⟨8 * minuteNs, none⟩,
   ⟨9 * minuteNs, some 8⟩]

/-- One-minute input whose trimmed range keeps an interior NaN: values at
minutes 0,1,2 and 4, NaN at minute 3. -/
def exC2 : PriceData :=
  ⟨some minuteNs,
   [⟨0, some 1⟩, ⟨minuteNs, some 2⟩, ⟨2 * minuteNs, some 3⟩,
    ⟨3 * minuteNs, none⟩, ⟨4 * minuteNs, some 4⟩]⟩

/-- One-minute input for the C2 amended-claim witness. -/
def exC2w : PriceData :=
  ⟨some minuteNs,
   [⟨0, some 5⟩, ⟨minuteNs, none⟩, ⟨2 * minuteNs, some 6⟩,
    ⟨3 * minuteNs, some 7⟩]⟩

/-- All-NaN one-minute series of three rows. -/
def exC3 : List Entry := [⟨0, none⟩, ⟨minuteNs, none⟩, ⟨2 * minuteNs, none⟩]

/-- The all-NaN series wrapped as `compute_start_end_stats` input. -/
def exC3p : PriceData := ⟨some minuteNs, exC3⟩

/-- Strictly increasing series with irregular, non-repeating gaps (one minute,
then two minutes), all values present: no dominant frequency is inferable. -/
def exC4 : List Entry :=
  [⟨0, some 10⟩, ⟨minuteNs, some 11⟩, ⟨3 * minuteNs, some 12⟩]

/-- One-minute series for the C1 witness: a leading isolated point and a
two-point run. -/
def exC1w : List Entry :=
  [⟨0, some 1⟩, ⟨minuteNs, none⟩, ⟨2 * minuteNs, some 2⟩,
   ⟨3 * minuteNs, some 3⟩]

/-- One-minute series with two runs of the maximal length 2 (a tie): values at
minutes 0,1, gap, values at minutes 3,4, gap, value at minute 6. -/
def exC5w : List Entry :=
  [⟨0, some 1⟩, ⟨minuteNs, some 2⟩, ⟨2 * minuteNs, none⟩,
   ⟨3 * minuteNs, some 3⟩, ⟨4 * minuteNs, some 4⟩, ⟨5 * minuteNs, none⟩,
   ⟨6 * minuteNs, some 5⟩]

/-- One-minute series with leading and trailing NaNs around an interior NaN. -/
def exC6w : List Entry :=
  [⟨0, none⟩, ⟨minuteNs, some 1⟩, ⟨2 * minuteNs, none⟩,
   ⟨3 * minuteNs, some 2⟩, ⟨4 * minuteNs, none⟩]

/-- Input spanning less than one whole day: `days_available` is zero. -/
def exC7 : PriceData :=
  ⟨some minuteNs,
   [⟨0, some 1⟩, ⟨minuteNs, some 2⟩, ⟨2 * minuteNs, some 3⟩,
    ⟨3 * minuteNs, none⟩, ⟨4 * minuteNs, some 4⟩]⟩

/-- Input for the C7 amended-claim witness. -/
def exC7w : PriceData :=
  ⟨some minuteNs,
   [⟨0, some 1⟩, ⟨minuteNs, some 2⟩, ⟨2 * minuteNs, some 3⟩]⟩

/-- Input for the C8 witness. -/
def exC8w : PriceData :=
  ⟨some minuteNs,
   [⟨0, some 9⟩, ⟨minuteNs, none⟩, ⟨2 * minuteNs, some 8⟩,
    ⟨3 * minuteNs, some 7⟩]⟩

/-- Perfectly regular two-minute series: its index `freq` attribute is the
two-minute offset, not `"T"`. -/
def exC10w : PriceData :=
  ⟨some (2 * minuteNs),
   [⟨0, some 1⟩, ⟨2 * minuteNs, some 2⟩, ⟨4 * minuteNs, some 3⟩]⟩

/-- Input for the C6 theorem witness, distinct from `exC6w` is not needed;
this one exercises the trim with all hypotheses decidable. -/
def exC6close : List Entry := exC6w

/-- Timestamps of `x` strictly precede those of `y` and their distance is a
multiple of the sampling interval `d`: the relation every pair of rows of a
regularly sampled index satisfies. -/
def gridRel (d : Int) (x y : Entry) : Prop :=
  x.ts < y.ts ∧ d ∣ (y.ts - x.ts)

/- ## Order and frequency infrastructure -/

theorem isNA_eq_not_isObs (e : Entry) : isNA e = !isObs e := by
  unfold isNA isObs
  cases e.val <;> rfl

theorem sIncB_iff_chain' (l : List Entry) :
    sIncB l = true ↔ List.Chain' (fun a b => a.ts < b.ts) l := by
  induction l with
  | nil => simp [sIncB]
  | cons a t ih =>
    cases t with
    | nil => simp [sIncB]
    | cons b r =>
      rw [sIncB, Bool.and_eq_true, decide_eq_true_iff, List.chain'_cons, ih]

theorem pairwise_of_chain' {R : Entry → Entry → Prop}
    (tr : ∀ {a b c : Entry}, R a b → R b c → R a c) :
    ∀ l : List Entry, List.Chain' R l → l.Pairwise R := by
  intro l hl
  induction l with
  | nil => exact List.Pairwise.nil
  | cons a t ih =>
    cases t with
    | nil => simp
    | cons b r =>
      rw [List.chain'_cons] at hl
      have hp := ih hl.2
      refine List.Pairwise.cons ?_ hp
      intro x hx
      rcases List.mem_cons.mp hx with h | h
      · exact h ▸ hl.1
      · exact tr hl.1 ((List.pairwise_cons.mp hp).1 x h)

theorem sIncB_pairwise {l : List Entry} (h : sIncB l = true) :
    l.Pairwise (fun a b => a.ts < b.ts) :=
  pairwise_of_chain' (R := fun a b => a.ts < b.ts)
    (fun hab hbc => lt_trans hab hbc) l ((sIncB_iff_chain' l).mp h)

theorem diffs_all_eq_iff (d : Int) :
    ∀ l : List Int, (∀ x ∈ diffs l, x = d) ↔
      List.Chain' (fun a b => b = a + d) l := by
  intro l
  induction l with
  | nil => simp [diffs]
  | cons a t ih =>
    cases t with
    | nil => simp [diffs]
    | cons b r =>
      rw [diffs, List.chain'_cons, ← ih]
      constructor
      · intro h
        refine ⟨by have := h (b - a) (by simp); omega, fun x hx => h x (by simp [hx])⟩
      · rintro ⟨h1, h2⟩ x hx
        rcases List.mem_cons.mp hx with h | h
        · omega
        · exact h2 x h

theorem pdInferFreq_some {ts : List Int} {d : Int}
    (h : pdInferFreq ts = .ok (some d)) :
    3 ≤ ts.length ∧ List.Chain' (fun a b => b = a + d) ts := by
  unfold pdInferFreq at h
  split at h
  · exact absurd h (by simp)
  · rename_i hlen
    refine ⟨by omega, ?_⟩
    rw [← diffs_all_eq_iff]
    split at h
    · rename_i hdiffs
      intro x hx
      rw [hdiffs] at hx
      simp at hx
    · rename_i d0 ds hdiffs
      split at h
      · rename_i hall
        have hd0 : d0 = d := by simpa using h
        intro x hx
        rw [hdiffs] at hx
        rcases List.mem_cons.mp hx with hh | hh
        · omega
        · have := List.all_eq_true.mp hall x hh
          simp at this
          omega
      · exact absurd h (by simp)

theorem freq_pos {s : List Entry} {d : Int} (hm : sIncB s = true)
    (hf : pdInferFreq (s.map Entry.ts) = .ok (some d)) : 0 < d := by
  obtain ⟨hlen, hch⟩ := pdInferFreq_some hf
  rw [List.chain'_map] at hch
  match s, hlen with
  | a :: b :: r, _ =>
    rw [List.chain'_cons] at hch
    rw [sIncB, Bool.and_eq_true, decide_eq_true_iff] at hm
    omega

theorem chain_step_pairwise_grid {s : List Entry} {d : Int} (hd : 0 < d)
    (hch : List.Chain' (fun a b => b.ts = a.ts + d) s) :
    s.Pairwise (gridRel d) := by
  refine pairwise_of_chain' (R := gridRel d) ?_ s (hch.imp ?_)
  · rintro a b c ⟨h1, k1, hk1⟩ ⟨h2, k2, hk2⟩
    exact ⟨lt_trans h1 h2, k1 + k2, by linarith [hk1, hk2]⟩
  · intro a b h
    exact ⟨by omega, 1, by omega⟩

theorem nn_pairwise_grid {s : List Entry} {d : Int} (hm : sIncB s = true)
    (hf : pdInferFreq (s.map Entry.ts) = .ok (some d)) :
    (dropna s).Pairwise (gridRel d) := by
  obtain ⟨_, hch⟩ := pdInferFreq_some hf
  rw [List.chain'_map] at hch
  exact List.Pairwise.sublist (List.filter_sublist s)
    (chain_step_pairwise_grid (freq_pos hm hf) hch)

/- ## Structure of the mask/split step -/

theorem splitAtGaps_ne_nil (d : Int) : ∀ l : List Entry, splitAtGaps d l ≠ [] := by
  intro l
  match l with
  | [] => simp [splitAtGaps]
  | [e] => simp [splitAtGaps]
  | e :: e' :: rest =>
    rw [splitAtGaps]
    split
    · simp
    · split <;> simp

theorem splitAtGaps_head (d : Int) (e : Entry) (l : List Entry) :
    ∃ t rs, splitAtGaps d (e :: l) = (e :: t) :: rs := by
  match l with
  | [] => exact ⟨[], [], by simp [splitAtGaps]⟩
  | e' :: rest =>
    rw [splitAtGaps]
    split
    · exact ⟨[], _, rfl⟩
    · split
      · rename_i r rs _
        exact ⟨r, rs, rfl⟩
      · exact ⟨[], [], rfl⟩

theorem splitAtGaps_flatten (d : Int) :
    ∀ l : List Entry, (splitAtGaps d l).flatten = l := by
  intro l
  induction l with
  | nil => simp [splitAtGaps]
  | cons e t ih =>
    cases t with
    | nil => simp [splitAtGaps]
    | cons e' rest =>
      rw [splitAtGaps]
      split
      · simpa using ih
      · split
        · rename_i r rs heq
          have : (r :: rs).flatten = e' :: rest := by rw [← heq]; exact ih
          simp only [List.flatten_cons] at this ⊢
          simp [this]
        · rename_i heq
          exact absurd heq (splitAtGaps_ne_nil d (e' :: rest))

theorem splitAtGaps_all_ne_nil (d : Int) :
    ∀ l : List Entry, l ≠ [] → ∀ r ∈ splitAtGaps d l, r ≠ [] := by
  intro l
  induction l with
  | nil => intro h; exact absurd rfl h
  | cons e t ih =>
    intro _ r hr
    cases t with
    | nil =>
      simp [splitAtGaps] at hr
      simp [hr]
    | cons e' rest =>
      rw [splitAtGaps] at hr
      split at hr
      · rcases List.mem_cons.mp hr with h | h
        · simp [h]
        · exact ih (by simp) r h
      · split at hr
        · rename_i r0 rs heq
          rcases List.mem_cons.mp hr with h | h
          · simp [h]
          · exact ih (by simp) r (by rw [heq]; exact List.mem_cons_of_mem _ h)
        · rcases List.mem_cons.mp hr with h | h
          · simp [h]
          · simp at h

theorem splitAtGaps_chains (d : Int) :
    ∀ l : List Entry, ∀ r ∈ splitAtGaps d l,
      List.Chain' (fun x y => y.ts - x.ts = d) r := by
  intro l
  induction l with
  | nil =>
    intro r hr
    simp [splitAtGaps] at hr
    simp [hr]
  | cons e t ih =>
    intro r hr
    cases t with
    | nil =>
      simp [splitAtGaps] at hr
      simp [hr]
    | cons e' rest =>
      rw [splitAtGaps] at hr
      split at hr
      · rcases List.mem_cons.mp hr with h | h
        · simp [h]
        · exact ih r h
      · rename_i hcond
        split at hr
        · rename_i r0 rs heq
          rcases List.mem_cons.mp hr with h | h
          · obtain ⟨t0, rs0, heq0⟩ := splitAtGaps_head d e' rest
            rw [heq0] at heq
            have hr0 : r0 = e' :: t0 :=
              ((List.cons.injEq _ _ _ _).mp heq).1.symm
            have hch : List.Chain' (fun x y => y.ts - x.ts = d) (e' :: t0) := by
              rw [← hr0]
              exact ih r0 (by rw [heq0, hr0]; exact List.mem_cons_self _ _)
            rw [h, hr0, List.chain'_cons]
            exact ⟨by omega, hch⟩
          · exact ih r (by rw [heq]; exact List.mem_cons_of_mem _ h)
        · rename_i heq
          exact absurd heq (splitAtGaps_ne_nil d (e' :: rest))

theorem splitAtGaps_eq_specSplit (d : Int) (hd : 0 < d) :
    ∀ l : List Entry, l.Pairwise (gridRel d) →
      splitAtGaps d l = specSplit d l := by
  intro l
  induction l with
  | nil => intro _; rfl
  | cons e t ih =>
    intro hp
    cases t with
    | nil => rfl
    | cons e' rest =>
      obtain ⟨hlt, hdvd⟩ :
          gridRel d e e' :=
        (List.pairwise_cons.mp hp).1 e' (List.mem_cons_self _ _)
      have hge : d ≤ e'.ts - e.ts :=
        Int.le_of_dvd (by omega) hdvd
      have hiff : (e'.ts - e.ts ≠ d) ↔ (d < e'.ts - e.ts) := by omega
      have hih : splitAtGaps d (e' :: rest) = specSplit d (e' :: rest) :=
        ih (List.pairwise_cons.mp hp).2
      rw [splitAtGaps, specSplit, hih]
      by_cases hc : d < e'.ts - e.ts
      · rw [if_pos (hiff.mpr hc), if_pos hc]
      · rw [if_neg (fun h => hc (hiff.mp h)), if_neg hc]

/- ## Properties of Python `max(..., key=len)` -/

theorem maxByLen_mem : ∀ l : List (List Entry), l ≠ [] → maxByLen l ∈ l := by
  intro l
  induction l with
  | nil => intro h; exact absurd rfl h
  | cons r rs ih =>
    intro _
    rw [maxByLen]
    by_cases hgt : (maxByLen rs).length > r.length
    · rw [if_pos hgt]
      have hne : rs ≠ [] := by
        intro h
        rw [h] at hgt
        simp [maxByLen] at hgt
      exact List.mem_cons_of_mem _ (ih hne)
    · rw [if_neg hgt]
      exact List.mem_cons_self _ _

theorem maxByLen_le :
    ∀ (l : List (List Entry)) (x : List Entry), x ∈ l →
      x.length ≤ (maxByLen l).length := by
  intro l
  induction l with
  | nil => intro x hx; simp at hx
  | cons r rs ih =>
    intro x hx
    rw [maxByLen]
    by_cases hgt : (maxByLen rs).length > r.length
    · rw [if_pos hgt]
      rcases List.mem_cons.mp hx with h | h
      · rw [h]; omega
      · exact ih x h
    · rw [if_neg hgt]
      rcases List.mem_cons.mp hx with h | h
      · rw [h]
      · have := ih x h; omega

theorem maxByLen_first {R : List Entry → List Entry → Prop} :
    ∀ l : List (List Entry), l.Pairwise R → ∀ x ∈ l,
      x.length = (maxByLen l).length → maxByLen l = x ∨ R (maxByLen l) x := by
  intro l
  induction l with
  | nil => intro _ x hx; simp at hx
  | cons r rs ih =>
    intro hp x hx hlen
    rw [maxByLen] at hlen ⊢
    by_cases hgt : (maxByLen rs).length > r.length
    · rw [if_pos hgt] at hlen ⊢
      rcases List.mem_cons.mp hx with h | h
      · exfalso
        rw [h] at hlen
        omega
      · exact ih (List.pairwise_cons.mp hp).2 x h hlen
    · rw [if_neg hgt] at hlen ⊢
      rcases List.mem_cons.mp hx with h | h
      · exact Or.inl h.symm
      · exact Or.inr ((List.pairwise_cons.mp hp).1 x h)

/- ## A run of interval-adjacent rows lies inside one split group -/

theorem chain_from_head_in_head_group (d : Int) :
    ∀ (tl : List Entry) (e : Entry) (l : List Entry),
      (e :: tl).Pairwise (gridRel d) →
      l.Sublist (e :: tl) →
      List.Chain' (fun x y => y.ts - x.ts = d) l →
      l.head? = some e →
      l.Sublist ((splitAtGaps d (e :: tl)).headD []) := by
  intro tl
  induction tl with
  | nil =>
    intro e l _ hsub _ hhead
    obtain ⟨l', rfl⟩ : ∃ l', l = e :: l' := by
      cases l with
      | nil => simp at hhead
      | cons x l' =>
        simp only [List.head?_cons, Option.some.injEq] at hhead
        exact ⟨l', by rw [hhead]⟩
    have hl' : l' = [] := by
      cases hsub with
      | cons _ h => simp at h
      | cons₂ _ h => exact List.sublist_nil.mp h
    subst hl'
    simp [splitAtGaps]
  | cons e' rest ih =>
    intro e l hp hsub hch hhead
    obtain ⟨l', rfl⟩ : ∃ l', l = e :: l' := by
      cases l with
      | nil => simp at hhead
      | cons x l' =>
        simp only [List.head?_cons, Option.some.injEq] at hhead
        exact ⟨l', by rw [hhead]⟩
    have hl' : l'.Sublist (e' :: rest) := by
      cases hsub with
      | cons₂ _ h => exact h
      | cons _ h =>
        exfalso
        have hmem : e ∈ e' :: rest := h.subset (List.mem_cons_self _ _)
        obtain ⟨hlt, _⟩ : gridRel d e e := (List.pairwise_cons.mp hp).1 e hmem
        exact absurd hlt (lt_irrefl _)
    cases l' with
    | nil =>
      obtain ⟨t, rs, heq⟩ := splitAtGaps_head d e (e' :: rest)
      rw [heq]
      simp
    | cons y l'' =>
      rw [List.chain'_cons] at hch
      obtain ⟨hee', hdvd⟩ :
          gridRel d e e' :=
        (List.pairwise_cons.mp hp).1 e' (List.mem_cons_self _ _)
      have hge : d ≤ e'.ts - e.ts := Int.le_of_dvd (by omega) hdvd
      have hymem : y ∈ e' :: rest := hl'.subset (List.mem_cons_self _ _)
      have hy : y = e' := by
        rcases List.mem_cons.mp hymem with h | h
        · exact h
        · exfalso
          obtain ⟨hlt, _⟩ : gridRel d e' y :=
            (List.pairwise_cons.mp (List.pairwise_cons.mp hp).2).1 y h
          omega
      have hyts : y.ts = e'.ts := by rw [hy]
      have hcond : ¬(e'.ts - e.ts ≠ d) := by omega
      obtain ⟨t', rs', heq'⟩ := splitAtGaps_head d e' rest
      have hstep : splitAtGaps d (e :: e' :: rest) = (e :: e' :: t') :: rs' := by
        rw [splitAtGaps, if_neg hcond, heq']
      have hih := ih e' (y :: l'') (List.pairwise_cons.mp hp).2 hl' hch.2
        (by rw [List.head?_cons, hy])
      rw [heq'] at hih
      rw [hstep]
      simp only [List.headD_cons] at hih ⊢
      exact List.Sublist.cons₂ e hih

theorem chain_in_some_group (d : Int) :
    ∀ (nn l : List Entry),
      nn.Pairwise (gridRel d) →
      l.Sublist nn →
      List.Chain' (fun x y => y.ts - x.ts = d) l →
      ∃ r ∈ splitAtGaps d nn, l.Sublist r := by
  intro nn
  induction nn with
  | nil =>
    intro l _ hsub _
    rw [List.sublist_nil.mp hsub]
    exact ⟨[], by simp [splitAtGaps]⟩
  | cons e tl ih =>
    intro l hp hsub hch
    cases l with
    | nil =>
      obtain ⟨r0, rs0, heq⟩ :=
        List.exists_cons_of_ne_nil (splitAtGaps_ne_nil d (e :: tl))
      exact ⟨r0, by rw [heq]; exact List.mem_cons_self _ _, List.nil_sublist _⟩
    | cons x l'' =>
      cases hsub with
      | cons₂ _ h =>
        have hmain := chain_from_head_in_head_group d tl e (e :: l'') hp
          (List.Sublist.cons₂ e h) hch rfl
        obtain ⟨r0, rs0, heq⟩ :=
          List.exists_cons_of_ne_nil (splitAtGaps_ne_nil d (e :: tl))
        refine ⟨r0, by rw [heq]; exact List.mem_cons_self _ _, ?_⟩
        rw [heq] at hmain
        simpa using hmain
      | cons _ h =>
        obtain ⟨r, hr, hsl⟩ := ih (x :: l'') (List.pairwise_cons.mp hp).2 h hch
        cases tl with
        | nil => simp at h
        | cons e' rest =>
          rw [splitAtGaps]
          split
          · exact ⟨r, List.mem_cons_of_mem _ hr, hsl⟩
          · split
            · rename_i r0 rs0 heq
              rw [heq] at hr
              rcases List.mem_cons.mp hr with hh | hh
              · exact ⟨e :: r0, List.mem_cons_self _ _,
                  hsl.trans (by rw [hh]; exact List.sublist_cons_self _ _)⟩
              · exact ⟨r, List.mem_cons_of_mem _ hh, hsl⟩
            · rename_i heq
              exact absurd heq (splitAtGaps_ne_nil d (e' :: rest))

/- ## Isolated points and group ordering -/

theorem splitAtGaps_isolated (d : Int) :
    ∀ (t : List Entry) (e : Entry),
      List.Chain' (fun x y => d < y.ts - x.ts) (e :: t) →
      splitAtGaps d (e :: t) = (e :: t).map (fun x => [x]) := by
  intro t
  induction t with
  | nil => intro e _; simp [splitAtGaps]
  | cons e' rest ih =>
    intro e hch
    rw [List.chain'_cons] at hch
    rw [splitAtGaps, if_pos (by omega), ih e' hch.2]
    rfl

theorem maxByLen_singletons :
    ∀ (t : List Entry) (e : Entry),
      maxByLen ((e :: t).map (fun x => [x])) = [e] := by
  intro t
  induction t with
  | nil => intro e; simp [maxByLen]
  | cons y t' ih =>
    intro e
    have hy := ih y
    simp only [List.map_cons] at hy ⊢
    rw [maxByLen, hy]
    simp

theorem splitAtGaps_pairwise_lt {d : Int} {nn : List Entry}
    (h : nn.Pairwise (fun x y => x.ts < y.ts)) :
    (splitAtGaps d nn).Pairwise (fun r r' => ∀ x ∈ r, ∀ y ∈ r', x.ts < y.ts) := by
  have hflat : ((splitAtGaps d nn).flatten).Pairwise (fun x y => x.ts < y.ts) := by
    rw [splitAtGaps_flatten]
    exact h
  exact (List.pairwise_flatten.mp hflat).2

/- ## Unfolding the run finder under an inferred frequency -/

theorem find_longest_eq {s : List Entry} {d : Int}
    (hm : sIncB s = true)
    (hf : pdInferFreq (s.map Entry.ts) = .ok (some d)) :
    find_longest_not_nan_sequence s =
      .ok (maxByLen (splitAtGaps d (dropna s))) := by
  rw [find_longest_not_nan_sequence, if_pos hm, hf]
  rfl

/- ## The trimming slice removes exactly the leading and trailing NaN rows -/

theorem find?_first {R : Entry → Entry → Prop} {p : Entry → Bool} :
    ∀ l : List Entry, l.Pairwise R → ∀ {y : Entry}, l.find? p = some y →
      ∀ x ∈ l, p x = true → x = y ∨ R y x := by
  intro l
  induction l with
  | nil => intro _ y hy; simp at hy
  | cons a t ih =>
    intro hp y hy x hx hpx
    by_cases hpa : p a = true
    · rw [List.find?_cons_of_pos _ hpa] at hy
      have hay : a = y := by simpa using hy
      subst hay
      rcases List.mem_cons.mp hx with h | h
      · exact Or.inl h
      · exact Or.inr ((List.pairwise_cons.mp hp).1 x h)
    · rw [List.find?_cons_of_neg _ (by simpa using hpa)] at hy
      rcases List.mem_cons.mp hx with h | h
      · exact absurd (h ▸ hpx) hpa
      · exact ih (List.pairwise_cons.mp hp).2 hy x h hpx

theorem filter_ge_first :
    ∀ l : List Entry, l.Pairwise (fun x y => x.ts < y.ts) →
      ∀ {ea : Entry}, l.find? isObs = some ea →
      l.filter (geLo (some ea.ts)) = l.dropWhile isNA := by
  intro l
  induction l with
  | nil => intro _ ea hy; simp at hy
  | cons b t ih =>
    intro hp ea hfind
    by_cases hb : isObs b = true
    · rw [List.find?_cons_of_pos _ hb] at hfind
      have hbe : b = ea := by simpa using hfind
      subst hbe
      rw [List.dropWhile_cons]
      rw [isNA_eq_not_isObs, hb]
      simp only [Bool.not_true, Bool.false_eq_true, if_false]
      rw [List.filter_cons]
      have hgb : geLo (some b.ts) b = true := by simp [geLo]
      rw [if_pos hgb]
      have : List.filter (geLo (some b.ts)) t = t := by
        rw [List.filter_eq_self]
        intro x hx
        have := (List.pairwise_cons.mp hp).1 x hx
        simp [geLo]
        omega
      rw [this]
    · rw [List.find?_cons_of_neg _ (by simpa using hb)] at hfind
      rw [List.dropWhile_cons]
      rw [isNA_eq_not_isObs]
      rw [Bool.not_eq_true] at hb
      rw [hb]
      simp only [Bool.not_false, if_true]
      rw [List.filter_cons]
      have hmem : ea ∈ t := List.mem_of_find?_eq_some hfind
      have hlt : b.ts < ea.ts := (List.pairwise_cons.mp hp).1 ea hmem
      have hgb : ¬(geLo (some ea.ts) b = true) := by
        simp [geLo]
        omega
      rw [if_neg hgb]
      exact ih (List.pairwise_cons.mp hp).2 hfind

theorem filter_le_first :
    ∀ l : List Entry, l.Pairwise (fun x y => y.ts < x.ts) →
      ∀ {eb : Entry}, l.find? isObs = some eb →
      l.filter (leHi (some eb.ts)) = l.dropWhile isNA := by
  intro l
  induction l with
  | nil => intro _ eb hy; simp at hy
  | cons b t ih =>
    intro hp eb hfind
    by_cases hb : isObs b = true
    · rw [List.find?_cons_of_pos _ hb] at hfind
      have hbe : b = eb := by simpa using hfind
      subst hbe
      rw [List.dropWhile_cons]
      rw [isNA_eq_not_isObs, hb]
      simp only [Bool.not_true, Bool.false_eq_true, if_false]
      rw [List.filter_cons]
      have hgb : leHi (some b.ts) b = true := by simp [leHi]
      rw [if_pos hgb]
      have : List.filter (leHi (some b.ts)) t = t := by
        rw [List.filter_eq_self]
        intro x hx
        have := (List.pairwise_cons.mp hp).1 x hx
        simp [leHi]
        omega
      rw [this]
    · rw [List.find?_cons_of_neg _ (by simpa using hb)] at hfind
      rw [List.dropWhile_cons]
      rw [isNA_eq_not_isObs]
      rw [Bool.not_eq_true] at hb
      rw [hb]
      simp only [Bool.not_false, if_true]
      rw [List.filter_cons]
      have hmem : eb ∈ t := List.mem_of_find?_eq_some hfind
      have hlt : eb.ts < b.ts := (List.pairwise_cons.mp hp).1 eb hmem
      have hgb : ¬(leHi (some eb.ts) b = true) := by
        simp [leHi]
        omega
      rw [if_neg hgb]
      exact ih (List.pairwise_cons.mp hp).2 hfind

theorem head?_dropWhile_not (p : Entry → Bool) :
    ∀ l : List Entry, ∀ {a : Entry},
      (l.dropWhile p).head? = some a → p a = false := by
  intro l
  induction l with
  | nil => intro a h; simp at h
  | cons b t ih =>
    intro a h
    rw [List.dropWhile_cons] at h
    split at h
    · exact ih h
    · rename_i hb
      have : b = a := by simpa using h
      rw [← this]
      exact Bool.not_eq_true _ |>.mp hb

theorem mem_dropWhile_of_not (p : Entry → Bool) (l : List Entry) (x : Entry)
    (hx : x ∈ l) (hpx : p x = false) : x ∈ l.dropWhile p := by
  have hsplit := List.takeWhile_append_dropWhile p l
  rw [← hsplit] at hx
  rcases List.mem_append.mp hx with h | h
  · exact absurd (List.mem_takeWhile_imp h) (by simp [hpx])
  · exact h

theorem exists_find?_of_mem {p : Entry → Bool} {l : List Entry} {e : Entry}
    (he : e ∈ l) (hpe : p e = true) : ∃ a, l.find? p = some a := by
  cases hfind : l.find? p with
  | none => exact absurd hpe (by simpa using List.find?_eq_none.mp hfind e he)
  | some a => exact ⟨a, rfl⟩

theorem reverse_decomp_dropWhile (p : Entry → Bool) (s : List Entry) :
    (s.reverse.dropWhile p).reverse ++ (s.reverse.takeWhile p).reverse = s := by
  have h := List.takeWhile_append_dropWhile p s.reverse
  calc (s.reverse.dropWhile p).reverse ++ (s.reverse.takeWhile p).reverse
      = (s.reverse.takeWhile p ++ s.reverse.dropWhile p).reverse := by
        rw [List.reverse_append]
    _ = s.reverse.reverse := by rw [h]
    _ = s := List.reverse_reverse s

theorem find?_dropTrailing (s : List Entry) {ea : Entry}
    (hea : s.find? isObs = some ea) :
    ((s.reverse.dropWhile isNA).reverse).find? isObs = some ea := by
  have hdec := reverse_decomp_dropWhile isNA s
  have hnone : ((s.reverse.takeWhile isNA).reverse).find? isObs = none := by
    rw [List.find?_eq_none]
    intro x hx
    have hna : isNA x = true :=
      List.mem_takeWhile_imp (List.mem_reverse.mp hx)
    rw [isNA_eq_not_isObs] at hna
    simp at hna
    simp [hna]
  rw [← hdec, List.find?_append, hnone, Option.or_none] at hea
  exact hea

theorem dropTrailing_sublist (p : Entry → Bool) (s : List Entry) :
    ((s.reverse.dropWhile p).reverse).Sublist s := by
  have h1 := (List.dropWhile_sublist (l := s.reverse) p).reverse
  rw [List.reverse_reverse] at h1
  exact h1

theorem trimSeries_eq_specTrim (s : List Entry)
    (hm : sIncB s = true) (hex : ∃ e ∈ s, isObs e = true) :
    trimSeries s = specTrim s := by
  have hpair := sIncB_pairwise hm
  obtain ⟨e0, he0, hobs0⟩ := hex
  obtain ⟨ea, hea⟩ := exists_find?_of_mem he0 hobs0
  obtain ⟨eb, heb⟩ :=
    exists_find?_of_mem (List.mem_reverse.mpr he0) hobs0
  rw [trimSeries, sliceByLabel, first_valid_index, last_valid_index, hea, heb]
  simp only [Option.map_some']
  have hconj : s.filter (fun e => geLo (some ea.ts) e && leHi (some eb.ts) e)
      = (s.filter (leHi (some eb.ts))).filter (geLo (some ea.ts)) := by
    rw [List.filter_filter]
  rw [hconj]
  have hrevpair : s.reverse.Pairwise (fun x y => y.ts < x.ts) := by
    rw [List.pairwise_reverse]
    exact hpair
  have hupper : s.filter (leHi (some eb.ts)) =
      (s.reverse.dropWhile isNA).reverse := by
    have hmain := filter_le_first s.reverse hrevpair heb
    calc s.filter (leHi (some eb.ts))
        = (s.reverse.filter (leHi (some eb.ts))).reverse := by
          rw [List.filter_reverse, List.reverse_reverse]
      _ = (s.reverse.dropWhile isNA).reverse := by rw [hmain]
  rw [hupper]
  have hdtrpair : ((s.reverse.dropWhile isNA).reverse).Pairwise
      (fun x y => x.ts < y.ts) :=
    List.Pairwise.sublist (dropTrailing_sublist isNA s) hpair
  have hdtrfind := find?_dropTrailing s hea
  exact filter_ge_first _ hdtrpair hdtrfind

/- ## Counting NaN and non-NaN rows -/

theorem length_isNA_add_isObs (s : List Entry) :
    (s.filter isNA).length + (s.filter isObs).length = s.length := by
  induction s with
  | nil => simp
  | cons e t ih =>
    simp only [List.filter_cons]
    rw [isNA_eq_not_isObs]
    cases hobs : isObs e
    · simp only [Bool.not_false, if_true, Bool.false_eq_true, if_false,
        List.length_cons]
      omega
    · simp only [Bool.not_true, Bool.false_eq_true, if_false, if_true,
        List.length_cons]
      omega

/- ## First and last valid rows -/

theorem first_le_last_valid {s : List Entry} (hm : sIncB s = true)
    {ea eb : Entry} (hea : s.find? isObs = some ea)
    (heb : s.reverse.find? isObs = some eb) : ea.ts ≤ eb.ts := by
  have hpair := sIncB_pairwise hm
  have hrevpair : s.reverse.Pairwise (fun x y => y.ts < x.ts) := by
    rw [List.pairwise_reverse]
    exact hpair
  have hobs_ea : isObs ea = true := List.find?_some hea
  have hmem_ea : ea ∈ s := List.mem_of_find?_eq_some hea
  have hcmp := find?_first (R := fun x y => y.ts < x.ts) s.reverse hrevpair heb
    ea (List.mem_reverse.mpr hmem_ea) hobs_ea
  rcases hcmp with h | h
  · exact le_of_eq (by rw [h])
  · exact le_of_lt h

theorem mem_trimSeries_first {s : List Entry} (hm : sIncB s = true)
    {ea eb : Entry} (hea : s.find? isObs = some ea)
    (heb : s.reverse.find? isObs = some eb) :
    ea ∈ trimSeries s := by
  rw [trimSeries, sliceByLabel, first_valid_index, last_valid_index, hea, heb]
  simp only [Option.map_some']
  rw [List.mem_filter]
  refine ⟨List.mem_of_find?_eq_some hea, ?_⟩
  have hle := first_le_last_valid hm hea heb
  simp only [geLo, leHi, Bool.and_eq_true, decide_eq_true_iff]
  omega

/- ## Inversion of a successful stats computation -/

theorem compute_start_end_stats_ok {p : PriceData} {st : StartEndStats}
    (h : compute_start_end_stats p = .ok st) :
    sIncB p.close = true ∧ p.indexFreq = some minuteNs ∧
    ∃ longest fi li h0 h1,
      find_longest_not_nan_sequence (trimSeries p.close) = .ok longest ∧
      first_valid_index p.close = some fi ∧
      last_valid_index p.close = some li ∧
      longest.head? = some h0 ∧
      longest.getLast? = some h1 ∧
      st = { minTimestamp := fi
             maxTimestamp := li
             nDataPoints := (dropna (trimSeries p.close)).length
             coverage := 100 * (1 - compute_frac_nan (trimSeries p.close))
             daysAvailable := Int.fdiv (li - fi) dayNs
             avgDataPointsPerDay :=
               npDiv ((dropna (trimSeries p.close)).length : Int)
                 (Int.fdiv (li - fi) dayNs)
             longestSeqDays := Int.fdiv (h1.ts - h0.ts) dayNs
             longestSeqPerc :=
               100 * ((longest.length : ℚ) /
                 ((trimSeries p.close).length : ℚ))
             longestSeqStart := h0.ts
             longestSeqEnd := h1.ts } := by
  unfold compute_start_end_stats at h
  split at h
  case isFalse => exact absurd h (by simp)
  case isTrue hm =>
  split at h
  case isFalse => exact absurd h (by simp)
  case isTrue hfreq =>
  split at h
  case h_1 => exact absurd h (by simp)
  case h_2 longest hfl =>
  split at h
  case h_2 => exact absurd h (by simp)
  case h_1 fi li hfi hli =>
  split at h
  case h_2 => exact absurd h (by simp)
  case h_1 h0 h1 hh0 hh1 =>
  exact ⟨hm, hfreq, longest, fi, li, h0, h1, hfl, hfi, hli, hh0, hh1,
    (Except.ok.inj h).symm⟩

/- # Claims -/

/-- C1: for every trimmed series with at least one non-missing entry and its
inferred sampling interval, the run returned by
`find_longest_not_nan_sequence` is obtained by marking a boundary exactly at
each successive difference of non-missing timestamps strictly greater than the
interval, partitioning the non-missing timestamps into maximal contiguous
groups at those boundaries, and returning the group with the greatest element
count; consequently no contiguous non-missing span longer than the returned
run exists under that interval. -/
theorem C1_run_partition_and_maximality (s : List Entry) (d : Int)
    (hm : sIncB s = true)
    (hf : pdInferFreq (s.map Entry.ts) = .ok (some d))
    (hne : dropna s ≠ []) :
    find_longest_not_nan_sequence s =
      .ok (maxByLen (specSplit d (dropna s))) ∧
    ∀ l : List Entry, l.Sublist (dropna s) →
      List.Chain' (fun x y => y.ts - x.ts = d) l →
      l.length ≤ (maxByLen (specSplit d (dropna s))).length := by
  have hd := freq_pos hm hf
  have hgrid := nn_pairwise_grid hm hf
  have hspec := splitAtGaps_eq_specSplit d hd (dropna s) hgrid
  constructor
  · rw [find_longest_eq hm hf, hspec]
  · intro l hsub hch
    obtain ⟨r, hr, hslr⟩ := chain_in_some_group d (dropna s) l hgrid hsub hch
    calc l.length ≤ r.length := hslr.length_le
      _ ≤ (maxByLen (splitAtGaps d (dropna s))).length := maxByLen_le _ r hr
      _ = _ := by rw [hspec]

/-- Witness for C1 at a concrete one-minute series. -/
theorem C1_run_partition_and_maximality_witness :
    find_longest_not_nan_sequence exC1w =
      .ok (maxByLen (specSplit minuteNs (dropna exC1w))) ∧
    ∀ l : List Entry, l.Sublist (dropna exC1w) →
      List.Chain' (fun x y => y.ts - x.ts = minuteNs) l →
      l.length ≤ (maxByLen (specSplit minuteNs (dropna exC1w))).length :=
  C1_run_partition_and_maximality exC1w minuteNs (by decide) rfl (by decide)

/-- C5: when several maximal groups tie on length, the returned run is the one
with the earliest start timestamp, and when every non-missing entry is
isolated (every successive gap exceeds the interval) the returned run is the
single earliest isolated point. -/
theorem C5_tie_break_earliest (s : List Entry) (d : Int)
    (hm : sIncB s = true)
    (hf : pdInferFreq (s.map Entry.ts) = .ok (some d))
    (hne : dropna s ≠ []) :
    ∃ m, find_longest_not_nan_sequence s = .ok m ∧
      m ∈ splitAtGaps d (dropna s) ∧
      (∀ r ∈ splitAtGaps d (dropna s), r.length ≤ m.length) ∧
      (∀ r ∈ splitAtGaps d (dropna s), r.length = m.length →
        ∀ a b, m.head? = some a → r.head? = some b → a.ts ≤ b.ts) ∧
      (List.Chain' (fun x y => d < y.ts - x.ts) (dropna s) →
        m.length = 1 ∧ m.head? = (dropna s).head?) := by
  have hgrid := nn_pairwise_grid hm hf
  have hlt : (dropna s).Pairwise (fun x y => x.ts < y.ts) :=
    hgrid.imp (fun h => h.1)
  refine ⟨maxByLen (splitAtGaps d (dropna s)), find_longest_eq hm hf,
    maxByLen_mem _ (splitAtGaps_ne_nil d _),
    fun r hr => maxByLen_le _ r hr, ?_, ?_⟩
  · intro r hr hlen a b ha hb
    have hPW := splitAtGaps_pairwise_lt (d := d) hlt
    have hcmp := maxByLen_first (R := fun r r' => ∀ x ∈ r, ∀ y ∈ r', x.ts < y.ts)
      (splitAtGaps d (dropna s)) hPW r hr hlen
    rcases hcmp with h | h
    · rw [h] at ha
      rw [ha] at hb
      exact le_of_eq (congrArg Entry.ts (Option.some.inj hb))
    · exact le_of_lt (h a (List.mem_of_mem_head? ha) b (List.mem_of_mem_head? hb))
  · intro hiso
    obtain ⟨e, t, het⟩ := List.exists_cons_of_ne_nil hne
    rw [het] at hiso ⊢
    rw [splitAtGaps_isolated d t e hiso, maxByLen_singletons]
    exact ⟨rfl, rfl⟩

/-- Witness for C5 at a one-minute series with two tied maximal runs. -/
theorem C5_tie_break_earliest_witness :
    ∃ m, find_longest_not_nan_sequence exC5w = .ok m ∧
      m ∈ splitAtGaps minuteNs (dropna exC5w) ∧
      (∀ r ∈ splitAtGaps minuteNs (dropna exC5w), r.length ≤ m.length) ∧
      (∀ r ∈ splitAtGaps minuteNs (dropna exC5w), r.length = m.length →
        ∀ a b, m.head? = some a → r.head? = some b → a.ts ≤ b.ts) ∧
      (List.Chain' (fun x y => minuteNs < y.ts - x.ts) (dropna exC5w) →
        m.length = 1 ∧ m.head? = (dropna exC5w).head?) :=
  C5_tie_break_earliest exC5w minuteNs (by decide) rfl (by decide)

/-- C6: for every series with at least one non-missing entry, the trimming
step returns exactly the sub-range from the first through the last non-missing
entry inclusive (the spec rendering `specTrim`: drop leading and trailing
missing rows, keeping interior rows in order), and the first and last entries
of the result are non-missing. -/
theorem C6_trim_exact (s : List Entry)
    (hm : sIncB s = true) (hex : ∃ e ∈ s, isObs e = true) :
    trimSeries s = specTrim s ∧
    (∀ e, (trimSeries s).head? = some e → isObs e = true) ∧
    (∀ e, (trimSeries s).getLast? = some e → isObs e = true) ∧
    (trimSeries s).Sublist s := by
  have heq := trimSeries_eq_specTrim s hm hex
  refine ⟨heq, ?_, ?_, ?_⟩
  · intro e he
    rw [heq] at he
    unfold specTrim at he
    have := head?_dropWhile_not isNA _ he
    rw [isNA_eq_not_isObs] at this
    simpa using this
  · intro e he
    rw [heq] at he
    unfold specTrim at he
    obtain ⟨pre, hpre⟩ :=
      List.dropWhile_suffix (l := (s.reverse.dropWhile isNA).reverse) isNA
    have hlast : ((s.reverse.dropWhile isNA).reverse).getLast? = some e := by
      rw [← hpre, List.getLast?_append, he]
      rfl
    rw [List.getLast?_reverse] at hlast
    have := head?_dropWhile_not isNA _ hlast
    rw [isNA_eq_not_isObs] at this
    simpa using this
  · rw [trimSeries, sliceByLabel]
    exact List.filter_sublist s

/-- Witness for C6 at a concrete series with leading and trailing NaNs. -/
theorem C6_trim_exact_witness :
    trimSeries exC6close = specTrim exC6close ∧
    (∀ e, (trimSeries exC6close).head? = some e → isObs e = true) ∧
    (∀ e, (trimSeries exC6close).getLast? = some e → isObs e = true) ∧
    (trimSeries exC6close).Sublist exC6close :=
  C6_trim_exact exC6close (by decide) (by decide)

/-- C9: on the one-minute scenario with values present at minutes 0,1,2,
missing at 3, present at 4,5,6,7, missing at 8 and present at 9, the run
finder returns the run covering minutes 4 through 7, of length 4. -/
theorem C9_scenario_a :
    (find_longest_not_nan_sequence exC9).map (List.map Entry.ts) =
      .ok [4 * minuteNs, 5 * minuteNs, 6 * minuteNs, 7 * minuteNs] ∧
    (find_longest_not_nan_sequence exC9).map List.length = .ok 4 :=
  ⟨rfl, rfl⟩

/-- C2 is refuted: the reported share divides the run length by the number of
entries of the trimmed range (interior NaNs included), not by the non-missing
count.  At `exC2` the trimmed range has 5 entries, 4 of them non-missing, and
the longest run has 3; the code reports 60, the claim demands 75. -/
theorem C2_counterexample :
    ∃ st, compute_start_end_stats exC2 = .ok st ∧
      st.longestSeqPerc = 60 ∧
      (find_longest_not_nan_sequence (trimSeries exC2.close)).map
        List.length = .ok 3 ∧
      (dropna (trimSeries exC2.close)).length = 4 ∧
      (trimSeries exC2.close).length = 5 ∧
      (60 : ℚ) ≠ 100 * ((3 : ℚ) / (4 : ℚ)) := by
  refine ⟨_, rfl, ?_, rfl, rfl, rfl, by norm_num⟩
  show (100 : ℚ) * (((3 : Nat) : ℚ) / ((5 : Nat) : ℚ)) = 60
  norm_num

/-- C2 amended: the reported share equals 100 times the run length divided by
the total entry count of the trimmed range (interior missing entries
included). -/
theorem C2_amended_share_of_trimmed (p : PriceData) (st : StartEndStats)
    (h : compute_start_end_stats p = .ok st) :
    ∃ run, find_longest_not_nan_sequence (trimSeries p.close) = .ok run ∧
      st.longestSeqPerc =
        100 * ((run.length : ℚ) / ((trimSeries p.close).length : ℚ)) := by
  obtain ⟨_, _, longest, fi, li, h0, h1, hfl, _, _, _, _, hst⟩ :=
    compute_start_end_stats_ok h
  exact ⟨longest, hfl, by rw [hst]⟩

/-- Witness for the amended C2. -/
theorem C2_amended_share_of_trimmed_witness :
    ∃ st, compute_start_end_stats exC2w = .ok st ∧
      ∃ run, find_longest_not_nan_sequence (trimSeries exC2w.close) = .ok run ∧
        st.longestSeqPerc =
          100 * ((run.length : ℚ) / ((trimSeries exC2w.close).length : ℚ)) :=
  ⟨_, rfl, C2_amended_share_of_trimmed exC2w _ rfl⟩

/-- C3 is refuted: on an all-NaN series neither operation raises.  Trimming
slices with two `None` bounds and returns the series unchanged, and
`find_longest_not_nan_sequence` returns an empty sequence; only the later
stats assembly fails, with a `TypeError` from subtracting `None` valid
indices (there is no `EmptySeriesError` anywhere in the code). -/
theorem C3_counterexample :
    trimSeries exC3 = exC3 ∧
    find_longest_not_nan_sequence exC3 = .ok [] ∧
    compute_start_end_stats exC3p = .error .typeError :=
  ⟨rfl, rfl, rfl⟩

/-- C3 amended: on every strictly increasing all-NaN series, trimming returns
the series unchanged; the run finder returns an empty sequence when the series
has at least three rows, and fails with the `ValueError` of `pd.infer_freq`
("Need at least 3 dates to infer frequency") when it has fewer; no dedicated
empty-series error is raised by either operation. -/
theorem C3_amended_all_nan (s : List Entry)
    (hm : sIncB s = true) (hnan : ∀ e ∈ s, e.val = none) :
    trimSeries s = s ∧
    (3 ≤ s.length → find_longest_not_nan_sequence s = .ok []) ∧
    (s.length < 3 →
      find_longest_not_nan_sequence s = .error .valueError) := by
  have hfindnone : s.find? isObs = none := by
    rw [List.find?_eq_none]
    intro x hx
    simp [isObs, hnan x hx]
  have hfindnoner : s.reverse.find? isObs = none := by
    rw [List.find?_eq_none]
    intro x hx
    simp [isObs, hnan x (List.mem_reverse.mp hx)]
  have hdropna : dropna s = [] := by
    rw [dropna, List.filter_eq_nil_iff]
    intro x hx
    simp [isObs, hnan x hx]
  refine ⟨?_, ?_, ?_⟩
  · rw [trimSeries, sliceByLabel, first_valid_index, last_valid_index,
      hfindnone, hfindnoner]
    simp only [Option.map_none']
    rw [List.filter_eq_self]
    intro a _
    rfl
  · intro hlen
    cases hfq : pdInferFreq (s.map Entry.ts) with
    | error e =>
      exfalso
      rw [pdInferFreq, if_neg (by simp only [List.length_map]; omega)] at hfq
      split at hfq
      · simp at hfq
      · split at hfq <;> simp at hfq
    | ok freq =>
      rw [find_longest_not_nan_sequence, if_pos hm, hfq, hdropna]
      simp [splitAtGaps, maxByLen]
  · intro hlen
    have hferr : pdInferFreq (s.map Entry.ts) = .error .valueError := by
      rw [pdInferFreq, if_pos (by simpa using hlen)]
    rw [find_longest_not_nan_sequence, if_pos hm, hferr]

/-- Witness for the amended C3. -/
theorem C3_amended_all_nan_witness :
    trimSeries exC3 = exC3 ∧
    (3 ≤ exC3.length → find_longest_not_nan_sequence exC3 = .ok []) ∧
    (exC3.length < 3 →
      find_longest_not_nan_sequence exC3 = .error .valueError) :=
  C3_amended_all_nan exC3 (by decide) (by decide)

/-- C4 is refuted: on a strictly increasing series of three points with
irregular, non-repeating gaps, `pd.infer_freq` returns `None`, yet the run
finder raises nothing: it silently compares gaps against the one-nanosecond
`pd.Timedelta(1, None)` and returns the first point as a length-1 run.  No
`IrregularSeriesError` exists in the code. -/
theorem C4_counterexample :
    pdInferFreq (exC4.map Entry.ts) = .ok none ∧
    find_longest_not_nan_sequence exC4 = .ok [⟨0, some 10⟩] :=
  ⟨rfl, rfl⟩

/-- C4 amended: when no dominant frequency is inferable from three or more
points the code silently assumes a one-nanosecond interval (isolating every
point) instead of raising; with fewer than three points frequency inference
raises a plain `ValueError`. -/
theorem C4_amended_silent_fallback (s : List Entry) (hm : sIncB s = true) :
    (pdInferFreq (s.map Entry.ts) = .ok none →
      find_longest_not_nan_sequence s =
        .ok (maxByLen (splitAtGaps 1 (dropna s)))) ∧
    (s.length < 3 →
      find_longest_not_nan_sequence s = .error .valueError) := by
  constructor
  · intro hf
    rw [find_longest_not_nan_sequence, if_pos hm, hf]
    rfl
  · intro hlen
    have hferr : pdInferFreq (s.map Entry.ts) = .error .valueError := by
      rw [pdInferFreq, if_pos (by simpa using hlen)]
    rw [find_longest_not_nan_sequence, if_pos hm, hferr]

/-- Witness for the amended C4. -/
theorem C4_amended_silent_fallback_witness :
    (pdInferFreq (exC4.map Entry.ts) = .ok none →
      find_longest_not_nan_sequence exC4 =
        .ok (maxByLen (splitAtGaps 1 (dropna exC4)))) ∧
    (exC4.length < 3 →
      find_longest_not_nan_sequence exC4 = .error .valueError) :=
  C4_amended_silent_fallback exC4 (by decide)

/-- C7 is refuted: at `exC7` the trimmed range spans zero whole days and the
computation succeeds anyway, reporting the numpy quotient `+inf` for the
average points per day instead of failing with any degenerate-range error. -/
theorem C7_counterexample :
    (compute_start_end_stats exC7).map StartEndStats.daysAvailable = .ok 0 ∧
    (compute_start_end_stats exC7).map StartEndStats.avgDataPointsPerDay =
      .ok NpVal.posInf :=
  ⟨rfl, rfl⟩

/-- C7 amended: the average is the numpy division of the non-missing count by
`days_available`: for a zero-day span it silently becomes `inf` (or `nan` for
a zero count) and propagates into the report; for a nonzero span it is the
exact quotient. -/
theorem C7_amended_numpy_division (p : PriceData) (st : StartEndStats)
    (h : compute_start_end_stats p = .ok st) :
    (st.daysAvailable = 0 →
      st.avgDataPointsPerDay =
        (if st.nDataPoints = 0 then NpVal.nan else NpVal.posInf)) ∧
    (st.daysAvailable ≠ 0 →
      st.avgDataPointsPerDay =
        NpVal.fin ((st.nDataPoints : ℚ) / (st.daysAvailable : ℚ))) := by
  obtain ⟨_, _, longest, fi, li, h0, h1, _, _, _, _, _, hst⟩ :=
    compute_start_end_stats_ok h
  subst hst
  constructor
  · intro hD
    simp only at hD ⊢
    rw [npDiv, if_pos hD]
    by_cases hB : (dropna (trimSeries p.close)).length = 0
    · rw [if_pos (by exact_mod_cast hB), if_pos hB]
    · rw [if_neg (by exact_mod_cast hB), if_neg hB,
        if_pos (by exact_mod_cast Nat.pos_of_ne_zero hB)]
  · intro hD
    simp only at hD ⊢
    rw [npDiv, if_neg hD]
    norm_num

/-- Witness for the amended C7. -/
theorem C7_amended_numpy_division_witness :
    ∃ st, compute_start_end_stats exC7w = .ok st ∧
      ((st.daysAvailable = 0 →
        st.avgDataPointsPerDay =
          (if st.nDataPoints = 0 then NpVal.nan else NpVal.posInf)) ∧
      (st.daysAvailable ≠ 0 →
        st.avgDataPointsPerDay =
          NpVal.fin ((st.nDataPoints : ℚ) / (st.daysAvailable : ℚ)))) :=
  ⟨_, rfl, C7_amended_numpy_division exC7w _ rfl⟩

/-- C8: the coverage reported for a successfully analyzed input equals 100
times the non-missing count divided by the total entry count of the trimmed
range, and lies between 0 and 100. -/
theorem C8_coverage_bound (p : PriceData) (st : StartEndStats)
    (h : compute_start_end_stats p = .ok st) :
    st.coverage = 100 * (((dropna (trimSeries p.close)).length : ℚ) /
      ((trimSeries p.close).length : ℚ)) ∧
    0 ≤ st.coverage ∧ st.coverage ≤ 100 := by
  obtain ⟨hm, hfreq, longest, fi, li, h0, h1, hfl, hfi, hli, hh0, hh1, hst⟩ :=
    compute_start_end_stats_ok h
  obtain ⟨ea, hea, hfi2⟩ := Option.map_eq_some'.mp (by
    rw [first_valid_index] at hfi
    exact hfi)
  obtain ⟨eb, heb, hli2⟩ := Option.map_eq_some'.mp (by
    rw [last_valid_index] at hli
    exact hli)
  have hmem := mem_trimSeries_first hm hea heb
  have hTpos : 0 < (trimSeries p.close).length :=
    List.length_pos.mpr (List.ne_nil_of_mem hmem)
  have hTq : (0 : ℚ) < ((trimSeries p.close).length : ℚ) := by
    exact_mod_cast hTpos
  have hcount := length_isNA_add_isObs (trimSeries p.close)
  have hkey : st.coverage = 100 * (((dropna (trimSeries p.close)).length : ℚ) /
      ((trimSeries p.close).length : ℚ)) := by
    rw [hst]
    show (100 : ℚ) * (1 - compute_frac_nan (trimSeries p.close)) = _
    rw [compute_frac_nan, dropna]
    have hAB : (((trimSeries p.close).filter isNA).length : ℚ) +
        (((trimSeries p.close).filter isObs).length : ℚ) =
        ((trimSeries p.close).length : ℚ) := by
      exact_mod_cast hcount
    have hTne : ((trimSeries p.close).length : ℚ) ≠ 0 := ne_of_gt hTq
    field_simp
    linarith
  refine ⟨hkey, ?_, ?_⟩
  · rw [hkey]
    positivity
  · rw [hkey]
    have hle : ((dropna (trimSeries p.close)).length : ℚ) ≤
        ((trimSeries p.close).length : ℚ) := by
      exact_mod_cast List.length_filter_le isObs (trimSeries p.close)
    have hdivle : ((dropna (trimSeries p.close)).length : ℚ) /
        ((trimSeries p.close).length : ℚ) ≤ 1 := by
      rw [div_le_one hTq]
      exact hle
    linarith

/-- Witness for C8. -/
theorem C8_coverage_bound_witness :
    ∃ st, compute_start_end_stats exC8w = .ok st ∧
      (st.coverage = 100 * (((dropna (trimSeries exC8w.close)).length : ℚ) /
        ((trimSeries exC8w.close).length : ℚ)) ∧
      0 ≤ st.coverage ∧ st.coverage ≤ 100) :=
  ⟨_, rfl, C8_coverage_bound exC8w _ rfl⟩

/-- C10: `compute_start_end_stats` fails its assertion whenever the index
`freq` attribute is not exactly the one-minute alias `"T"`, before any
statistic is computed — even for a perfectly regular series at another
interval. -/
theorem C10_minute_freq_assertion (p : PriceData)
    (hm : sIncB p.close = true) (hf : p.indexFreq ≠ some minuteNs) :
    compute_start_end_stats p = .error .assertionError := by
  rw [compute_start_end_stats, if_pos hm, if_neg hf]

/-- Witness for C10 at a perfectly regular two-minute series. -/
theorem C10_minute_freq_assertion_witness :
    compute_start_end_stats exC10w = .error .assertionError :=
  C10_minute_freq_assertion exC10w (by decide) (by decide)

end KaizenStats
